import Mathlib

/-!
Shallow embedding of the feature aggregation and normalization pipeline of
`src/feature_engineering.py` (VPN-detection repository).

Modelling choices:
* A pandas `DataFrame` is a column-oriented `Table`: an ordered list of
  (column name, list of cell values) pairs.  Cell values are real numbers;
  Python float arithmetic is idealized as real arithmetic, with the literal
  `1e-9` rendered as the rational 1/10^9.
* A parsed JSON summary document is a `Summary`: an association list from
  string keys to numbers; `Summary.get` embeds Python's `dict.get(key, default)`.
* Fallible steps (column access on a missing column, `os.makedirs` on an
  empty path) return `Except Err`; `Err.SchemaError c` models the exception
  raised on accessing a missing required column `c`, and
  `Err.FileNotFoundError` models the `FileNotFoundError` raised by
  `os.makedirs("")`.
* `run` models the whole of `feature_engineering(...)` including the sink:
  a result `.ok t` means the output file was written with table `t`;
  an `.error e` result means the run aborted with no output written
  (in the source the directory creation and `to_csv` call are the last
  statements, after all computation).
-/

/-- Errors of the embedded pipeline (spec §7 taxonomy): `SchemaError c` for a
missing required column `c`, `FileNotFoundError` for `os.makedirs` on the
empty string. -/
inductive Err where
  | SchemaError : String → Err
  | FileNotFoundError : Err
deriving DecidableEq

/-- A parsed flat JSON summary document: keys to numeric values. -/
def Summary : Type := List (String × ℝ)

/-- Python `d.get(key, default)` on a summary document. -/
def Summary.get (s : Summary) (key : String) (dflt : ℝ) : ℝ :=
  match s.find? (fun p => p.1 == key) with
  | some p => p.2
  | none => dflt

/-- Lookup without default: `some v` iff `key` is present (first occurrence). -/
def Summary.getOpt (s : Summary) (key : String) : Option ℝ :=
  match s.find? (fun p => p.1 == key) with
  | some p => some p.2
  | none => none

/-- A pandas DataFrame, column-oriented: ordered (name, cells) pairs. -/
structure Table where
  cols : List (String × List ℝ)

/-- First column with the given name, as in `df[name]` (read). -/
def lookupCol : List (String × List ℝ) → String → Option (List ℝ)
  | [], _ => none
  | p :: rest, n => if p.1 = n then some p.2 else lookupCol rest n

/-- `df[name] = v`: replace the column in place if present, else append it
at the end (pandas column-assignment semantics). -/
def setColList : List (String × List ℝ) → String → List ℝ → List (String × List ℝ)
  | [], n, v => [(n, v)]
  | p :: rest, n, v => if p.1 = n then (n, v) :: rest else p :: setColList rest n v

def Table.getCol (t : Table) (n : String) : Option (List ℝ) :=
  lookupCol t.cols n

def Table.setCol (t : Table) (n : String) (v : List ℝ) : Table :=
  ⟨setColList t.cols n v⟩

def Table.colNames (t : Table) : List String :=
  t.cols.map Prod.fst

/-- Number of rows: length of the first column (0 for a column-less table). -/
def Table.nrows (t : Table) : Nat :=
  match t.cols with
  | [] => 0
  | p :: _ => p.2.length

/-- Well-formedness: every column has the same number of cells. -/
def Table.WF (t : Table) : Prop :=
  ∀ p ∈ t.cols, p.2.length = t.nrows

/-- `compute_entropy(arr)` from the source: 0 on the empty array, else the
Shannon entropy (base 2) of the empirical distribution given by the unique
values of `arr` and their multiplicities (`np.unique(arr, return_counts=True)`;
enumeration order of the unique values does not affect the sum). -/
noncomputable def compute_entropy (arr : List ℝ) : ℝ :=
  if arr = [] then 0
  else
    let values := arr.dedup
    let counts := values.map (fun v => (arr.count v : ℝ))
    let total := counts.sum
    let probs := counts.map (fun c => c / total)
    let entropy := Neg.neg ((probs.map (fun p => p * Real.logb 2 p)).sum)
    entropy

/-- The `1e-9` constant of the normalization denominator. -/
noncomputable def eps : ℝ := 1 / 1000000000

/-- `series.min()` on a nonempty column (the empty case never occurs on the
columns of a nonempty table; pandas would give NaN there). -/
noncomputable def seriesMin : List ℝ → ℝ
  | [] => 0
  | [x] => x
  | x :: y :: rest => min x (seriesMin (y :: rest))

/-- `series.max()`, same conventions as `seriesMin`. -/
noncomputable def seriesMax : List ℝ → ℝ
  | [] => 0
  | [x] => x
  | x :: y :: rest => max x (seriesMax (y :: rest))

/-- One iteration of the normalization loop:
`(flows[col] - flows[col].min()) / (flows[col].max() - flows[col].min() + 1e-9)`. -/
noncomputable def normalizeCol (v : List ℝ) : List ℝ :=
  let m := seriesMin v
  let M := seriesMax v
  v.map (fun x => (x - m) / (M - m + eps))

/-- The normalization loop over a list of column names; accessing a missing
column raises (modelled as `SchemaError`). -/
noncomputable def normalizeCols (t : Table) : List String → Except Err Table
  | [] => .ok t
  | c :: rest =>
    match t.getCol c with
    | none => .error (Err.SchemaError c)
    | some v => normalizeCols (t.setCol c (normalizeCol v)) rest

/-- The 13 columns normalized by the source (`numeric_cols`, lines 60-63). -/
def numeric_cols : List String :=
  ["duration", "packet_count", "byte_count", "avg_interarrival", "interarrival_var",
   "burst_score", "mean_packet_size", "std_packet_size",
   "tls_unique_fp", "tls_suspicious_ratio", "vpn_like_ip_ratio", "local_ip_ratio",
   "packet_size_entropy"]

/-- Successive scalar-broadcast assignments `df[n] = x` (one full column of
the repeated scalar, pandas broadcasting), in list order. -/
noncomputable def broadcastCols (t : Table) : List (String × ℝ) → Table
  | [] => t
  | (n, x) :: rest => broadcastCols (t.setCol n (List.replicate t.nrows x)) rest

/-- The nine aggregated scalars of lines 23-43 and 49-58, in the source's
assignment order, paired with their destination column names: summary keys
read with `.get` defaults, ratios guarded by `max(..., 1)`. -/
noncomputable def aggSpecs (temporal size tls rep : Summary) : List (String × ℝ) :=
  [("avg_interarrival", temporal.get "avg_mean_interarrival" 0),
   ("interarrival_var", temporal.get "avg_variance_interarrival" 0),
   ("burst_score", temporal.get "avg_burst_score" 0),
   ("mean_packet_size", size.get "mean_packet_size" 0),
   ("std_packet_size", size.get "std_packet_size" 0),
   ("tls_unique_fp", tls.get "unique_fingerprints" 0),
   ("tls_suspicious_ratio", tls.get "suspicious_fingerprint_ratio" 0),
   ("vpn_like_ip_ratio",
     rep.get "vpn_like_ips" 0 / max (rep.get "total_unique_ips" 1) 1),
   ("local_ip_ratio",
     rep.get "local_ips" 0 / max (rep.get "total_unique_ips" 1) 1)]

/-- The column additions of lines 46-58 of the source, given the cells `bc`
of the `byte_count` column: the per-row entropy column (line 46) followed by
the nine broadcast scalar columns (lines 49-58). -/
noncomputable def mergeAux (flows : Table)
    (temporal size tls rep : Summary) (bc : List ℝ) : Table :=
  broadcastCols
    (flows.setCol "packet_size_entropy" (bc.map (fun x => compute_entropy [x])))
    (aggSpecs temporal size tls rep)

/-- Lines 23-58 of the source: reading the `byte_count` column of a table
that lacks it raises (modelled as `SchemaError`); otherwise the entropy and
broadcast columns are added by `mergeAux`. -/
noncomputable def merge_features (flows : Table)
    (temporal size tls rep : Summary) : Except Err Table :=
  match flows.getCol "byte_count" with
  | none => .error (Err.SchemaError "byte_count")
  | some bc => .ok (mergeAux flows temporal size tls rep bc)

/-- `feature_engineering` up to (not including) the sink: merge then
normalize the 13 `numeric_cols`. -/
noncomputable def feature_engineering (flows : Table)
    (temporal size tls rep : Summary) : Except Err Table :=
  match merge_features flows temporal size tls rep with
  | .error e => .error e
  | .ok t => normalizeCols t numeric_cols

/-- `os.path.dirname` on a POSIX path (as a character list): the prefix up to
the last separator, with trailing separators stripped unless the result is
all separators. -/
def dirname (p : List Char) : List Char :=
  let head := (p.reverse.dropWhile (fun c => c ≠ '/')).reverse
  if head ≠ [] ∧ head.any (fun c => c ≠ '/') then
    (head.reverse.dropWhile (fun c => c = '/')).reverse
  else head

/-- `os.makedirs(p, exist_ok=True)` over an always-writable filesystem:
succeeds on any nonempty path, raises `FileNotFoundError` on the empty
string. -/
def makedirs (p : List Char) : Except Err Unit :=
  if p = [] then .error Err.FileNotFoundError else .ok ()

/-- The whole `feature_engineering(...)` call including the sink (lines
68-69): compute, create the output's parent directory, write.  `.ok t`
means the output file now holds `t`; `.error` means nothing was written. -/
noncomputable def run (flows : Table) (temporal size tls rep : Summary)
    (output_csv : List Char) : Except Err Table :=
  match feature_engineering flows temporal size tls rep with
  | .error e => .error e
  | .ok t =>
    match makedirs (dirname output_csv) with
    | .error e => .error e
    | .ok _ => .ok t

/-! ### Structural lemmas about tables -/

theorem lookupCol_set_self (l : List (String × List ℝ)) (n : String) (v : List ℝ) :
    lookupCol (setColList l n v) n = some v := by
  induction l with
  | nil => simp [setColList, lookupCol]
  | cons p rest ih =>
    by_cases h : p.1 = n
    · simp [setColList, lookupCol, h]
    · simp [setColList, lookupCol, h, ih]

theorem lookupCol_set_ne (l : List (String × List ℝ)) {m n : String} (v : List ℝ)
    (h : m ≠ n) : lookupCol (setColList l n v) m = lookupCol l m := by
  have hnm : ¬ n = m := fun hc => h hc.symm
  induction l with
  | nil => simp [setColList, lookupCol, hnm]
  | cons p rest ih =>
    by_cases hp : p.1 = n
    · simp [setColList, lookupCol, hp, hnm]
    · simp [setColList, lookupCol, hp, ih]

@[simp] theorem getCol_setCol_self (t : Table) (n : String) (v : List ℝ) :
    (t.setCol n v).getCol n = some v :=
  lookupCol_set_self t.cols n v

@[simp] theorem getCol_setCol_ne (t : Table) {m n : String} (v : List ℝ)
    (h : ¬ m = n) : (t.setCol n v).getCol m = t.getCol m :=
  lookupCol_set_ne t.cols v h

theorem lookupCol_eq_none_iff (l : List (String × List ℝ)) (n : String) :
    lookupCol l n = none ↔ n ∉ l.map Prod.fst := by
  induction l with
  | nil => simp [lookupCol]
  | cons p rest ih =>
    by_cases h : p.1 = n
    · simp [lookupCol, h]
    · have h2 : ¬ n = p.1 := fun hc => h hc.symm
      simp [lookupCol, h, h2, ih]

theorem getCol_isSome_iff_mem (t : Table) (n : String) :
    (t.getCol n).isSome = true ↔ n ∈ t.colNames := by
  have hiff := lookupCol_eq_none_iff t.cols n
  by_cases hmem : n ∈ t.colNames
  · have hne : ¬ lookupCol t.cols n = none := by
      intro hc
      exact (hiff.mp hc) (by simpa [Table.colNames] using hmem)
    rcases ho : lookupCol t.cols n with _ | v
    · exact absurd ho hne
    · simp [Table.getCol, ho, hmem]
  · have h0 : lookupCol t.cols n = none := hiff.mpr (by simpa [Table.colNames] using hmem)
    simp [Table.getCol, h0, hmem]

theorem mem_setColList (l : List (String × List ℝ)) (n : String) (v : List ℝ)
    {q : String × List ℝ} (hq : q ∈ setColList l n v) : q ∈ l ∨ q = (n, v) := by
  induction l with
  | nil => simp [setColList] at hq; simp [hq]
  | cons p rest ih =>
    by_cases h : p.1 = n
    · simp [setColList, h] at hq
      rcases hq with hq | hq
      · right; simp [hq]
      · left; simp [hq]
    · simp [setColList, h] at hq
      rcases hq with hq | hq
      · left; simp [hq]
      · rcases ih hq with hq2 | hq2
        · left; simp [hq2]
        · right; exact hq2

theorem nrows_setCol (t : Table) (n : String) (v : List ℝ)
    (h : v.length = t.nrows) : (t.setCol n v).nrows = t.nrows := by
  rcases t with ⟨cols⟩
  cases cols with
  | nil => simp_all [Table.setCol, setColList, Table.nrows]
  | cons p rest =>
    by_cases hp : p.1 = n
    · simp [Table.setCol, setColList, Table.nrows, hp] at h ⊢
      omega
    · simp [Table.setCol, setColList, Table.nrows, hp]

theorem WF_setCol (t : Table) (n : String) (v : List ℝ)
    (hWF : t.WF) (h : v.length = t.nrows) : (t.setCol n v).WF := by
  intro q hq
  rw [nrows_setCol t n v h]
  rcases mem_setColList t.cols n v hq with hq2 | hq2
  · exact hWF q hq2
  · simp [hq2, h]

theorem lookupCol_mem (l : List (String × List ℝ)) (n : String) {v : List ℝ}
    (h : lookupCol l n = some v) : (n, v) ∈ l := by
  induction l with
  | nil => simp [lookupCol] at h
  | cons p rest ih =>
    rcases p with ⟨pn, pv⟩
    by_cases hp : pn = n
    · subst hp
      simp [lookupCol] at h
      simp [h]
    · simp [lookupCol, hp] at h
      exact List.mem_cons_of_mem _ (ih h)

theorem getCol_length (t : Table) (n : String) {v : List ℝ}
    (hWF : t.WF) (h : t.getCol n = some v) : v.length = t.nrows :=
  hWF (n, v) (lookupCol_mem t.cols n h)

theorem setColList_map_fst (l : List (String × List ℝ)) (n : String) (v : List ℝ) :
    (setColList l n v).map Prod.fst =
      if n ∈ l.map Prod.fst then l.map Prod.fst else l.map Prod.fst ++ [n] := by
  induction l with
  | nil => simp [setColList]
  | cons p rest ih =>
    by_cases hp : p.1 = n
    · simp [setColList, hp]
    · have h2 : ¬ n = p.1 := fun hc => hp hc.symm
      by_cases hm : n ∈ rest.map Prod.fst
      · simp [setColList, hp, hm, h2, ih]
      · simp [setColList, hp, hm, h2, ih]

theorem colNames_setCol (t : Table) (n : String) (v : List ℝ) :
    (t.setCol n v).colNames =
      if n ∈ t.colNames then t.colNames else t.colNames ++ [n] := by
  simp [Table.setCol, Table.colNames, setColList_map_fst]

/-! ### Numeric lemmas about normalization -/

theorem eps_pos : (0 : ℝ) < eps := by
  norm_num [eps]

theorem seriesMin_le (l : List ℝ) : ∀ x ∈ l, seriesMin l ≤ x := by
  induction l with
  | nil => simp
  | cons a rest ih =>
    cases rest with
    | nil => simp [seriesMin]
    | cons b rest2 =>
      intro x hx
      rcases List.mem_cons.mp hx with hx | hx
      · subst hx
        exact min_le_left _ _
      · exact le_trans (min_le_right _ _) (ih x hx)

theorem le_seriesMax (l : List ℝ) : ∀ x ∈ l, x ≤ seriesMax l := by
  induction l with
  | nil => simp
  | cons a rest ih =>
    cases rest with
    | nil => simp [seriesMax]
    | cons b rest2 =>
      intro x hx
      rcases List.mem_cons.mp hx with hx | hx
      · subst hx
        exact le_max_left _ _
      · exact le_trans (ih x hx) (le_max_right _ _)

theorem seriesMin_const (l : List ℝ) (k : ℝ) (hne : l ≠ [])
    (hc : ∀ x ∈ l, x = k) : seriesMin l = k := by
  induction l with
  | nil => exact absurd rfl hne
  | cons a rest ih =>
    have ha : a = k := hc a (by simp)
    cases rest with
    | nil => simp [seriesMin, ha]
    | cons b rest2 =>
      have hrest : seriesMin (b :: rest2) = k :=
        ih (by simp) (fun x hx => hc x (List.mem_cons_of_mem _ hx))
      simp [seriesMin, ha, hrest]

theorem seriesMax_const (l : List ℝ) (k : ℝ) (hne : l ≠ [])
    (hc : ∀ x ∈ l, x = k) : seriesMax l = k := by
  induction l with
  | nil => exact absurd rfl hne
  | cons a rest ih =>
    have ha : a = k := hc a (by simp)
    cases rest with
    | nil => simp [seriesMax, ha]
    | cons b rest2 =>
      have hrest : seriesMax (b :: rest2) = k :=
        ih (by simp) (fun x hx => hc x (List.mem_cons_of_mem _ hx))
      simp [seriesMax, ha, hrest]

theorem normalizeCol_length (v : List ℝ) : (normalizeCol v).length = v.length := by
  simp [normalizeCol]

/-- Every value a normalized column takes lies in [0, 1]. -/
theorem normalizeCol_mem_bounds (v : List ℝ) :
    ∀ x ∈ normalizeCol v, 0 ≤ x ∧ x ≤ 1 := by
  intro x hx
  simp only [normalizeCol, List.mem_map] at hx
  obtain ⟨y, hy, rfl⟩ := hx
  have h1 : seriesMin v ≤ y := seriesMin_le v y hy
  have h2 : y ≤ seriesMax v := le_seriesMax v y hy
  have hden : 0 < seriesMax v - seriesMin v + eps := by
    have := eps_pos
    linarith
  constructor
  · exact div_nonneg (by linarith) (le_of_lt hden)
  · rw [div_le_one hden]
    have he := eps_pos
    linarith

theorem normalizeCol_const (l : List ℝ) (k : ℝ)
    (hc : ∀ x ∈ l, x = k) : normalizeCol l = List.replicate l.length 0 := by
  cases l with
  | nil => simp [normalizeCol]
  | cons a rest =>
    have hne : (a :: rest : List ℝ) ≠ [] := by simp
    have hm : seriesMin (a :: rest) = k := seriesMin_const _ k hne hc
    have hM : seriesMax (a :: rest) = k := seriesMax_const _ k hne hc
    rw [List.eq_replicate_iff]
    refine ⟨normalizeCol_length _, ?_⟩
    intro b hb
    simp only [normalizeCol, List.mem_map] at hb
    obtain ⟨y, hy, rfl⟩ := hb
    rw [hc y hy, hm, hM]
    simp

theorem compute_entropy_singleton (x : ℝ) : compute_entropy [x] = 0 := by
  simp [compute_entropy, Real.logb]

/-! ### Lemmas about the normalization loop -/

theorem normalizeCols_ok (cols : List String) (t : Table)
    (h : ∀ c ∈ cols, (t.getCol c).isSome = true) :
    ∃ u, normalizeCols t cols = .ok u := by
  induction cols generalizing t with
  | nil => exact ⟨t, rfl⟩
  | cons c rest ih =>
    rcases ho : t.getCol c with _ | v
    · have hc := h c (by simp)
      simp [ho] at hc
    · have hrest : ∀ d ∈ rest, ((t.setCol c (normalizeCol v)).getCol d).isSome = true := by
        intro d hd
        by_cases hdc : d = c
        · subst hdc
          simp
        · rw [getCol_setCol_ne _ _ hdc]
          exact h d (by simp [hd])
      obtain ⟨u, hu⟩ := ih _ hrest
      exact ⟨u, by simp [normalizeCols, ho, hu]⟩

theorem normalizeCols_getCol_not_mem (cols : List String) (t u : Table)
    (h : normalizeCols t cols = .ok u) (c : String) (hc : c ∉ cols) :
    u.getCol c = t.getCol c := by
  induction cols generalizing t with
  | nil =>
    simp [normalizeCols] at h
    rw [h]
  | cons d rest ih =>
    rcases ho : t.getCol d with _ | v
    · simp [normalizeCols, ho] at h
    · simp [normalizeCols, ho] at h
      have hcd : ¬ c = d := fun hcc => hc (by simp [hcc])
      have hcr : c ∉ rest := fun hr => hc (by simp [hr])
      exact (ih _ h hcr).trans (getCol_setCol_ne t _ hcd)

theorem normalizeCols_getCol_mem (cols : List String) (hnd : cols.Nodup)
    (t u : Table) (h : normalizeCols t cols = .ok u) (c : String) (v : List ℝ)
    (hc : c ∈ cols) (hv : t.getCol c = some v) :
    u.getCol c = some (normalizeCol v) := by
  induction cols generalizing t with
  | nil => simp at hc
  | cons d rest ih =>
    rcases ho : t.getCol d with _ | w
    · simp [normalizeCols, ho] at h
    · simp [normalizeCols, ho] at h
      rcases List.mem_cons.mp hc with hcd | hcr
      · subst hcd
        have hwv : w = v := by
          rw [ho] at hv
          exact Option.some.inj hv
        subst hwv
        have hnotin : c ∉ rest := (List.nodup_cons.mp hnd).1
        rw [normalizeCols_getCol_not_mem rest _ _ h c hnotin]
        simp
      · have hne : ¬ c = d := by
          intro hcc
          exact (List.nodup_cons.mp hnd).1 (hcc ▸ hcr)
        have hv2 : (t.setCol d (normalizeCol w)).getCol c = some v := by
          rw [getCol_setCol_ne _ _ hne]
          exact hv
        exact ih (List.nodup_cons.mp hnd).2 _ h hcr hv2

theorem normalizeCols_colNames (cols : List String) (t u : Table)
    (h : normalizeCols t cols = .ok u) : u.colNames = t.colNames := by
  induction cols generalizing t with
  | nil =>
    simp [normalizeCols] at h
    rw [h]
  | cons d rest ih =>
    rcases ho : t.getCol d with _ | v
    · simp [normalizeCols, ho] at h
    · simp [normalizeCols, ho] at h
      have hd2 : d ∈ t.colNames := (getCol_isSome_iff_mem t d).mp (by simp [ho])
      have hset : (t.setCol d (normalizeCol v)).colNames = t.colNames := by
        rw [colNames_setCol]
        simp [hd2]
      rw [ih _ h, hset]

theorem normalizeCols_WF (cols : List String) (t u : Table)
    (h : normalizeCols t cols = .ok u) (hWF : t.WF) :
    u.WF ∧ u.nrows = t.nrows := by
  induction cols generalizing t with
  | nil =>
    simp [normalizeCols] at h
    rw [h] at hWF ⊢
    exact ⟨hWF, rfl⟩
  | cons d rest ih =>
    rcases ho : t.getCol d with _ | v
    · simp [normalizeCols, ho] at h
    · simp [normalizeCols, ho] at h
      have hlen : (normalizeCol v).length = t.nrows := by
        rw [normalizeCol_length]
        exact getCol_length t d hWF ho
      obtain ⟨w1, w2⟩ := ih _ h (WF_setCol t d _ hWF hlen)
      exact ⟨w1, by rw [w2, nrows_setCol t d _ hlen]⟩

/-! ### Lemmas about the broadcast step -/

theorem broadcastCols_WF (specs : List (String × ℝ)) (t : Table) (hWF : t.WF) :
    (broadcastCols t specs).WF ∧ (broadcastCols t specs).nrows = t.nrows := by
  induction specs generalizing t with
  | nil => exact ⟨hWF, rfl⟩
  | cons s rest ih =>
    rcases s with ⟨n, x⟩
    have hlen : (List.replicate t.nrows x).length = t.nrows := by simp
    obtain ⟨w1, w2⟩ := ih _ (WF_setCol t n _ hWF hlen)
    exact ⟨w1, by rw [broadcastCols, w2, nrows_setCol t n _ hlen]⟩

theorem broadcastCols_getCol_not_mem (specs : List (String × ℝ)) (t : Table)
    (c : String) (hc : c ∉ specs.map Prod.fst) :
    (broadcastCols t specs).getCol c = t.getCol c := by
  induction specs generalizing t with
  | nil => rfl
  | cons s rest ih =>
    rcases s with ⟨n, x⟩
    have hcn : ¬ c = n := fun hcc => hc (by simp [hcc])
    have hcr : c ∉ rest.map Prod.fst := fun hr => hc (by simp [hr])
    rw [broadcastCols, ih _ hcr, getCol_setCol_ne _ _ hcn]

theorem broadcastCols_getCol_mem (specs : List (String × ℝ))
    (hnd : (specs.map Prod.fst).Nodup) (t : Table) (hWF : t.WF)
    (c : String) (x : ℝ) (hc : (c, x) ∈ specs) :
    (broadcastCols t specs).getCol c = some (List.replicate t.nrows x) := by
  induction specs generalizing t with
  | nil => simp at hc
  | cons s rest ih =>
    rcases s with ⟨n, y⟩
    simp only [List.map_cons] at hnd
    rcases List.mem_cons.mp hc with hcy | hcr
    · obtain ⟨hc1, hc2⟩ := Prod.mk.inj hcy
      subst hc1
      subst hc2
      have hnotin : c ∉ rest.map Prod.fst := (List.nodup_cons.mp hnd).1
      rw [broadcastCols, broadcastCols_getCol_not_mem rest _ c hnotin]
      simp
    · have hnd2 : (rest.map Prod.fst).Nodup := (List.nodup_cons.mp hnd).2
      have hlen : (List.replicate t.nrows y).length = t.nrows := by simp
      have hWF2 := WF_setCol t n _ hWF hlen
      rw [broadcastCols, ih hnd2 _ hWF2 hcr, nrows_setCol t n _ hlen]

theorem broadcastCols_colNames (specs : List (String × ℝ)) (t : Table)
    (hdis : ∀ c ∈ specs.map Prod.fst, c ∉ t.colNames)
    (hnd : (specs.map Prod.fst).Nodup) :
    (broadcastCols t specs).colNames = t.colNames ++ specs.map Prod.fst := by
  induction specs generalizing t with
  | nil => simp [broadcastCols]
  | cons s rest ih =>
    rcases s with ⟨n, x⟩
    have hn : n ∉ t.colNames := hdis n (by simp)
    have hset : (t.setCol n (List.replicate t.nrows x)).colNames = t.colNames ++ [n] := by
      rw [colNames_setCol]
      simp [hn]
    have hdis2 : ∀ c ∈ rest.map Prod.fst, c ∉ (t.setCol n (List.replicate t.nrows x)).colNames := by
      intro c hcr
      rw [hset]
      intro hmem
      rcases List.mem_append.mp hmem with hmem | hmem
      · exact hdis c (by simp [hcr]) hmem
      · have hcn : c = n := by simpa using hmem
        exact (List.nodup_cons.mp (by simpa using hnd)).1 (hcn ▸ hcr)
    have hnd2 : (rest.map Prod.fst).Nodup := (List.nodup_cons.mp (by simpa using hnd)).2
    rw [broadcastCols, ih _ hdis2 hnd2, hset]
    simp

theorem broadcastCols_getCol_isSome (specs : List (String × ℝ)) (t : Table)
    (c : String)
    (h : (t.getCol c).isSome = true ∨ c ∈ specs.map Prod.fst) :
    ((broadcastCols t specs).getCol c).isSome = true := by
  induction specs generalizing t with
  | nil =>
    rcases h with h | h
    · exact h
    · simp at h
  | cons s rest ih =>
    rcases s with ⟨n, y⟩
    rw [broadcastCols]
    by_cases hcn : c = n
    · subst hcn
      exact ih _ (Or.inl (by simp))
    · apply ih
      rcases h with h | h
      · exact Or.inl (by rw [getCol_setCol_ne _ _ hcn]; exact h)
      · simp only [List.map_cons] at h
        rcases List.mem_cons.mp h with h2 | h2
        · exact absurd h2 hcn
        · exact Or.inr h2

theorem aggSpecs_names (temporal size tls rep : Summary) :
    (aggSpecs temporal size tls rep).map Prod.fst =
      ["avg_interarrival", "interarrival_var", "burst_score", "mean_packet_size",
       "std_packet_size", "tls_unique_fp", "tls_suspicious_ratio",
       "vpn_like_ip_ratio", "local_ip_ratio"] := by
  simp [aggSpecs]

theorem mergeAux_WF (flows : Table) (temporal size tls rep : Summary) (bc : List ℝ)
    (hWF : flows.WF) (hb : flows.getCol "byte_count" = some bc) :
    (mergeAux flows temporal size tls rep bc).WF ∧
      (mergeAux flows temporal size tls rep bc).nrows = flows.nrows := by
  have hlen : (bc.map (fun x => compute_entropy [x])).length = flows.nrows := by
    simp [getCol_length flows _ hWF hb]
  have hWF1 := WF_setCol flows "packet_size_entropy" _ hWF hlen
  have hnr1 := nrows_setCol flows "packet_size_entropy" _ hlen
  obtain ⟨w1, w2⟩ := broadcastCols_WF (aggSpecs temporal size tls rep) _ hWF1
  exact ⟨w1, w2.trans hnr1⟩

theorem mergeAux_hasCol (flows : Table) (temporal size tls rep : Summary) (bc : List ℝ)
    (hd : "duration" ∈ flows.colNames) (hp : "packet_count" ∈ flows.colNames)
    (hb : flows.getCol "byte_count" = some bc) :
    ∀ c ∈ numeric_cols, ((mergeAux flows temporal size tls rep bc).getCol c).isSome = true := by
  intro c hc
  rw [mergeAux]
  apply broadcastCols_getCol_isSome
  rw [aggSpecs_names]
  simp only [numeric_cols] at hc
  fin_cases hc
  · exact Or.inl (by
      rw [getCol_setCol_ne _ _ (by simp)]
      exact (getCol_isSome_iff_mem flows _).mpr hd)
  · exact Or.inl (by
      rw [getCol_setCol_ne _ _ (by simp)]
      exact (getCol_isSome_iff_mem flows _).mpr hp)
  · exact Or.inl (by
      rw [getCol_setCol_ne _ _ (by simp)]
      simp [hb])
  · exact Or.inr (by simp)
  · exact Or.inr (by simp)
  · exact Or.inr (by simp)
  · exact Or.inr (by simp)
  · exact Or.inr (by simp)
  · exact Or.inr (by simp)
  · exact Or.inr (by simp)
  · exact Or.inr (by simp)
  · exact Or.inr (by simp)
  · exact Or.inl (by simp)

theorem numeric_cols_nodup : numeric_cols.Nodup := by
  simp [numeric_cols]

theorem feature_engineering_eq (flows : Table) (temporal size tls rep : Summary)
    (bc : List ℝ)
    (hd : "duration" ∈ flows.colNames) (hp : "packet_count" ∈ flows.colNames)
    (hb : flows.getCol "byte_count" = some bc) :
    ∃ u, feature_engineering flows temporal size tls rep = .ok u ∧
      normalizeCols (mergeAux flows temporal size tls rep bc) numeric_cols = .ok u := by
  obtain ⟨u, hu⟩ := normalizeCols_ok numeric_cols _
    (mergeAux_hasCol flows temporal size tls rep bc hd hp hb)
  refine ⟨u, ?_, hu⟩
  simp [feature_engineering, merge_features, hb, hu]

/-! ### The end-to-end scenario of spec §8 -/

def scenFlows : Table :=
  ⟨[("duration", [1, 2, 3]), ("packet_count", [10, 20, 30]),
    ("byte_count", [100, 200, 300])]⟩

def scenTemporal : Summary :=
  [("avg_mean_interarrival", 0.5), ("avg_variance_interarrival", 0.1),
   ("avg_burst_score", 2)]

def scenSize : Summary :=
  [("mean_packet_size", 150), ("std_packet_size", 50)]

def scenTls : Summary :=
  [("unique_fingerprints", 3), ("suspicious_fingerprint_ratio", 0.2)]

def scenRep : Summary :=
  [("vpn_like_ips", 1), ("local_ips", 1), ("total_unique_ips", 2)]

/-- The merged (pre-normalization) table the pipeline builds on the scenario. -/
noncomputable def scenMerged : Table :=
  ⟨[("duration", [1, 2, 3]), ("packet_count", [10, 20, 30]),
    ("byte_count", [100, 200, 300]),
    ("packet_size_entropy", [0, 0, 0]),
    ("avg_interarrival", [0.5, 0.5, 0.5]),
    ("interarrival_var", [0.1, 0.1, 0.1]),
    ("burst_score", [2, 2, 2]),
    ("mean_packet_size", [150, 150, 150]),
    ("std_packet_size", [50, 50, 50]),
    ("tls_unique_fp", [3, 3, 3]),
    ("tls_suspicious_ratio", [0.2, 0.2, 0.2]),
    ("vpn_like_ip_ratio", [0.5, 0.5, 0.5]),
    ("local_ip_ratio", [0.5, 0.5, 0.5])]⟩

/-- The final (normalized) output table on the scenario. -/
noncomputable def scenOut : Table :=
  ⟨[("duration", [0, 1 / (2 + eps), 2 / (2 + eps)]),
    ("packet_count", [0, 10 / (20 + eps), 20 / (20 + eps)]),
    ("byte_count", [0, 100 / (200 + eps), 200 / (200 + eps)]),
    ("packet_size_entropy", [0, 0, 0]),
    ("avg_interarrival", [0, 0, 0]),
    ("interarrival_var", [0, 0, 0]),
    ("burst_score", [0, 0, 0]),
    ("mean_packet_size", [0, 0, 0]),
    ("std_packet_size", [0, 0, 0]),
    ("tls_unique_fp", [0, 0, 0]),
    ("tls_suspicious_ratio", [0, 0, 0]),
    ("vpn_like_ip_ratio", [0, 0, 0]),
    ("local_ip_ratio", [0, 0, 0])]⟩

theorem scen_merge :
    merge_features scenFlows scenTemporal scenSize scenTls scenRep = .ok scenMerged := by
  have hbc : scenFlows.getCol "byte_count" = some [100, 200, 300] := rfl
  rw [merge_features, hbc]
  simp [mergeAux, aggSpecs, broadcastCols, Summary.get, scenTemporal, scenSize,
    scenTls, scenRep, Table.setCol, setColList, Table.nrows, scenFlows, scenMerged,
    compute_entropy_singleton, List.find?]
  norm_num

theorem scen_norm : normalizeCols scenMerged numeric_cols = .ok scenOut := by
  simp [normalizeCols, numeric_cols, Table.getCol, lookupCol, Table.setCol, setColList,
    normalizeCol, seriesMin, seriesMax, scenMerged, scenOut]
  norm_num [min_def, max_def]

theorem scen_fe :
    feature_engineering scenFlows scenTemporal scenSize scenTls scenRep = .ok scenOut := by
  rw [feature_engineering, scen_merge]
  exact scen_norm

/-! ### Further helpers for the claims -/

/-- The 10 derived columns, in the order the source adds them. -/
def new_feature_cols : List String :=
  ["packet_size_entropy", "avg_interarrival", "interarrival_var", "burst_score",
   "mean_packet_size", "std_packet_size", "tls_unique_fp", "tls_suspicious_ratio",
   "vpn_like_ip_ratio", "local_ip_ratio"]

theorem Summary.get_eq_dflt (s : Summary) (k : String) (d : ℝ)
    (h : s.getOpt k = none) : s.get k d = d := by
  unfold Summary.getOpt at h
  unfold Summary.get
  rcases hf : List.find? (fun p => p.1 == k) s with _ | p
  · rw [hf]
  · rw [hf] at h
    simp at h

theorem Summary.get_eq_of_getOpt (s : Summary) (k : String) (d x : ℝ)
    (h : s.getOpt k = some x) : s.get k d = x := by
  unfold Summary.getOpt at h
  unfold Summary.get
  rcases hf : List.find? (fun p => p.1 == k) s with _ | p
  · rw [hf] at h
    simp at h
  · rw [hf] at h
    rw [hf]
    simpa using h

theorem aggSpecs_names_nodup (temporal size tls rep : Summary) :
    ((aggSpecs temporal size tls rep).map Prod.fst).Nodup := by
  rw [aggSpecs_names]
  simp

theorem mergeAux_broadcast_col (flows : Table) (temporal size tls rep : Summary)
    (bc : List ℝ) (hWF : flows.WF) (hb : flows.getCol "byte_count" = some bc)
    (c : String) (x : ℝ) (hcx : (c, x) ∈ aggSpecs temporal size tls rep) :
    (mergeAux flows temporal size tls rep bc).getCol c =
      some (List.replicate flows.nrows x) := by
  have hlen : (bc.map (fun y => compute_entropy [y])).length = flows.nrows := by
    simp [getCol_length flows _ hWF hb]
  have hWF0 := WF_setCol flows "packet_size_entropy" _ hWF hlen
  have hnr0 := nrows_setCol flows "packet_size_entropy" _ hlen
  rw [mergeAux,
    broadcastCols_getCol_mem _ (aggSpecs_names_nodup temporal size tls rep) _ hWF0 c x hcx,
    hnr0]

theorem dirname_eq_nil_iff (p : List Char) : dirname p = [] ↔ '/' ∉ p := by
  unfold dirname
  by_cases hm : '/' ∈ p
  · simp only [hm, not_true, iff_false]
    have hhead : (p.reverse.dropWhile (fun c => c ≠ '/')).reverse ≠ [] := by
      simp only [ne_eq, List.reverse_eq_nil_iff, List.dropWhile_eq_nil_iff]
      intro hall
      have := hall '/' (List.mem_reverse.mpr hm)
      simp at this
    by_cases hany : (p.reverse.dropWhile (fun c => c ≠ '/')).reverse.any (fun c => c ≠ '/')
    · rw [if_pos ⟨hhead, hany⟩]
      intro hc
      rw [List.reverse_eq_nil_iff, List.dropWhile_eq_nil_iff] at hc
      rw [List.any_eq_true] at hany
      obtain ⟨c, hcmem, hcne⟩ := hany
      have := hc c (List.mem_reverse.mpr hcmem)
      simp at this hcne
      exact hcne this
    · rw [if_neg (fun hcond => hany hcond.2)]
      exact hhead
  · have hdrop : p.reverse.dropWhile (fun c => c ≠ '/') = [] := by
      rw [List.dropWhile_eq_nil_iff]
      intro x hx
      rw [List.mem_reverse] at hx
      have hne : x ≠ '/' := fun hc => hm (hc ▸ hx)
      simp [hne]
    simp [hdrop, hm]
    intro x hx hc
    exact hm (hc ▸ hx)

/-! ### The claims -/

/-- C3: for every valid input (required flow columns present), every one of
the 13 `numeric_cols` of the output of `feature_engineering` holds only
values in the closed interval [0, 1]. -/
theorem claim_C3 (flows : Table) (temporal size tls rep : Summary) (bc : List ℝ)
    (hd : "duration" ∈ flows.colNames) (hp : "packet_count" ∈ flows.colNames)
    (hb : flows.getCol "byte_count" = some bc) :
    ∃ u, feature_engineering flows temporal size tls rep = .ok u ∧
      ∀ c ∈ numeric_cols, ∀ l, u.getCol c = some l → ∀ x ∈ l, 0 ≤ x ∧ x ≤ 1 := by
  obtain ⟨u, hu, hnorm⟩ := feature_engineering_eq flows temporal size tls rep bc hd hp hb
  refine ⟨u, hu, ?_⟩
  intro c hc l hl x hx
  have hsome := mergeAux_hasCol flows temporal size tls rep bc hd hp hb c hc
  rcases ho : (mergeAux flows temporal size tls rep bc).getCol c with _ | v
  · rw [ho] at hsome
    simp at hsome
  · have hval := normalizeCols_getCol_mem numeric_cols numeric_cols_nodup _ _ hnorm c v hc ho
    rw [hl] at hval
    have hlv : l = normalizeCol v := Option.some.inj hval
    exact normalizeCol_mem_bounds v x (hlv ▸ hx)

/-- Witness for C3 at the spec §8 scenario input. -/
theorem claim_C3_witness :
    ("duration" ∈ scenFlows.colNames ∧ "packet_count" ∈ scenFlows.colNames ∧
      scenFlows.getCol "byte_count" = some [100, 200, 300]) ∧
    (∃ u, feature_engineering scenFlows scenTemporal scenSize scenTls scenRep = .ok u ∧
      ∀ c ∈ numeric_cols, ∀ l, u.getCol c = some l → ∀ x ∈ l, 0 ≤ x ∧ x ≤ 1) :=
  ⟨⟨by simp [scenFlows, Table.colNames], by simp [scenFlows, Table.colNames], rfl⟩,
   claim_C3 scenFlows scenTemporal scenSize scenTls scenRep [100, 200, 300]
     (by simp [scenFlows, Table.colNames]) (by simp [scenFlows, Table.colNames]) rfl⟩

/-- C4: the normalization step maps a column whose cells are all equal to a
uniformly zero column (never NaN or infinite — the epsilon keeps the
denominator positive, and in this real-valued model the quotient is the
real number 0 on every row). -/
theorem claim_C4 (l : List ℝ) (k : ℝ) (hc : ∀ x ∈ l, x = k) :
    normalizeCol l = List.replicate l.length 0 :=
  normalizeCol_const l k hc

/-- Witness for C4 on the constant column [5, 5, 5]. -/
theorem claim_C4_witness :
    (∀ x ∈ [(5 : ℝ), 5, 5], x = 5) ∧
      normalizeCol [(5 : ℝ), 5, 5] = List.replicate 3 0 :=
  ⟨by norm_num, by simpa using claim_C4 [(5 : ℝ), 5, 5] 5 (by norm_num)⟩

/-- C5: on every valid input, the pre-normalization `packet_size_entropy`
column produced by the merge stage is 0 on every row, because the entropy is
taken of the one-element list `[byte_count]`. -/
theorem claim_C5 (flows : Table) (temporal size tls rep : Summary) (bc : List ℝ)
    (hb : flows.getCol "byte_count" = some bc) :
    ∃ m, merge_features flows temporal size tls rep = .ok m ∧
      m.getCol "packet_size_entropy" = some (List.replicate bc.length 0) := by
  refine ⟨mergeAux flows temporal size tls rep bc, by simp [merge_features, hb], ?_⟩
  rw [mergeAux, broadcastCols_getCol_not_mem _ _ _ (by rw [aggSpecs_names]; simp),
    getCol_setCol_self]
  congr 1
  simp [compute_entropy_singleton]

/-- Witness for C5 at the spec §8 scenario input. -/
theorem claim_C5_witness :
    scenFlows.getCol "byte_count" = some [100, 200, 300] ∧
    (∃ m, merge_features scenFlows scenTemporal scenSize scenTls scenRep = .ok m ∧
      m.getCol "packet_size_entropy" =
        some (List.replicate ([(100 : ℝ), 200, 300]).length 0)) :=
  ⟨rfl, claim_C5 scenFlows scenTemporal scenSize scenTls scenRep [100, 200, 300] rfl⟩

/-- C6: when the reputation summary has `total_unique_ips` present and equal
to 0, the merge stage raises no division error and the two ratio columns
equal `vpn_like_ips / 1` and `local_ips / 1` on every row, thanks to the
`max(total_unique_ips, 1)` guard. -/
theorem claim_C6 (flows : Table) (temporal size tls rep : Summary) (bc : List ℝ)
    (hWF : flows.WF) (hb : flows.getCol "byte_count" = some bc)
    (h0 : rep.getOpt "total_unique_ips" = some 0) :
    ∃ m, merge_features flows temporal size tls rep = .ok m ∧
      m.getCol "vpn_like_ip_ratio" =
        some (List.replicate flows.nrows (rep.get "vpn_like_ips" 0 / 1)) ∧
      m.getCol "local_ip_ratio" =
        some (List.replicate flows.nrows (rep.get "local_ips" 0 / 1)) := by
  have hget : rep.get "total_unique_ips" 1 = 0 := Summary.get_eq_of_getOpt rep _ 1 0 h0
  have hmax : max (rep.get "total_unique_ips" 1) 1 = 1 := by
    rw [hget]
    exact max_eq_right zero_le_one
  refine ⟨mergeAux flows temporal size tls rep bc, by simp [merge_features, hb], ?_, ?_⟩
  · apply mergeAux_broadcast_col flows temporal size tls rep bc hWF hb
    simp [aggSpecs, hmax]
  · apply mergeAux_broadcast_col flows temporal size tls rep bc hWF hb
    simp [aggSpecs, hmax]

def w6Rep : Summary := [("vpn_like_ips", 3), ("local_ips", 2), ("total_unique_ips", 0)]

/-- Witness for C6: a reputation summary with `total_unique_ips = 0`. -/
theorem claim_C6_witness :
    (scenFlows.WF ∧ scenFlows.getCol "byte_count" = some [100, 200, 300] ∧
      Summary.getOpt w6Rep "total_unique_ips" = some 0) ∧
    (∃ m, merge_features scenFlows scenTemporal scenSize scenTls w6Rep = .ok m ∧
      m.getCol "vpn_like_ip_ratio" =
        some (List.replicate scenFlows.nrows (Summary.get w6Rep "vpn_like_ips" 0 / 1)) ∧
      m.getCol "local_ip_ratio" =
        some (List.replicate scenFlows.nrows (Summary.get w6Rep "local_ips" 0 / 1))) :=
  ⟨⟨by intro p hp; fin_cases hp <;> rfl, rfl, rfl⟩,
   claim_C6 scenFlows scenTemporal scenSize scenTls w6Rep [100, 200, 300]
     (by intro p hp; fin_cases hp <;> rfl) rfl rfl⟩

/-- C7: whenever a summary document omits a recognized key, the broadcast
column derived from that key is uniformly 0 across all rows, except that an
omitted `total_unique_ips` defaults to 1 (so the ratio columns become
`vpn_like_ips / 1` and `local_ips / 1`). -/
theorem claim_C7 (flows : Table) (temporal size tls rep : Summary) (bc : List ℝ)
    (hWF : flows.WF) (hb : flows.getCol "byte_count" = some bc) :
    ∃ m, merge_features flows temporal size tls rep = .ok m ∧
      (temporal.getOpt "avg_mean_interarrival" = none →
        m.getCol "avg_interarrival" = some (List.replicate flows.nrows 0)) ∧
      (temporal.getOpt "avg_variance_interarrival" = none →
        m.getCol "interarrival_var" = some (List.replicate flows.nrows 0)) ∧
      (temporal.getOpt "avg_burst_score" = none →
        m.getCol "burst_score" = some (List.replicate flows.nrows 0)) ∧
      (size.getOpt "mean_packet_size" = none →
        m.getCol "mean_packet_size" = some (List.replicate flows.nrows 0)) ∧
      (size.getOpt "std_packet_size" = none →
        m.getCol "std_packet_size" = some (List.replicate flows.nrows 0)) ∧
      (tls.getOpt "unique_fingerprints" = none →
        m.getCol "tls_unique_fp" = some (List.replicate flows.nrows 0)) ∧
      (tls.getOpt "suspicious_fingerprint_ratio" = none →
        m.getCol "tls_suspicious_ratio" = some (List.replicate flows.nrows 0)) ∧
      (rep.getOpt "vpn_like_ips" = none →
        m.getCol "vpn_like_ip_ratio" = some (List.replicate flows.nrows 0)) ∧
      (rep.getOpt "local_ips" = none →
        m.getCol "local_ip_ratio" = some (List.replicate flows.nrows 0)) ∧
      (rep.getOpt "total_unique_ips" = none →
        m.getCol "vpn_like_ip_ratio" =
          some (List.replicate flows.nrows (rep.get "vpn_like_ips" 0 / 1)) ∧
        m.getCol "local_ip_ratio" =
          some (List.replicate flows.nrows (rep.get "local_ips" 0 / 1))) := by
  refine ⟨mergeAux flows temporal size tls rep bc, by simp [merge_features, hb],
    ?_, ?_, ?_, ?_, ?_, ?_, ?_, ?_, ?_, ?_⟩
  · intro hnone
    apply mergeAux_broadcast_col flows temporal size tls rep bc hWF hb
    simp [aggSpecs, Summary.get_eq_dflt _ _ _ hnone]
  · intro hnone
    apply mergeAux_broadcast_col flows temporal size tls rep bc hWF hb
    simp [aggSpecs, Summary.get_eq_dflt _ _ _ hnone]
  · intro hnone
    apply mergeAux_broadcast_col flows temporal size tls rep bc hWF hb
    simp [aggSpecs, Summary.get_eq_dflt _ _ _ hnone]
  · intro hnone
    apply mergeAux_broadcast_col flows temporal size tls rep bc hWF hb
    simp [aggSpecs, Summary.get_eq_dflt _ _ _ hnone]
  · intro hnone
    apply mergeAux_broadcast_col flows temporal size tls rep bc hWF hb
    simp [aggSpecs, Summary.get_eq_dflt _ _ _ hnone]
  · intro hnone
    apply mergeAux_broadcast_col flows temporal size tls rep bc hWF hb
    simp [aggSpecs, Summary.get_eq_dflt _ _ _ hnone]
  · intro hnone
    apply mergeAux_broadcast_col flows temporal size tls rep bc hWF hb
    simp [aggSpecs, Summary.get_eq_dflt _ _ _ hnone]
  · intro hnone
    apply mergeAux_broadcast_col flows temporal size tls rep bc hWF hb
    simp [aggSpecs, Summary.get_eq_dflt _ _ _ hnone]
  · intro hnone
    apply mergeAux_broadcast_col flows temporal size tls rep bc hWF hb
    simp [aggSpecs, Summary.get_eq_dflt _ _ _ hnone]
  · intro hnone
    have h1 := Summary.get_eq_dflt rep "total_unique_ips" 1 hnone
    constructor
    · apply mergeAux_broadcast_col flows temporal size tls rep bc hWF hb
      simp [aggSpecs, h1]
    · apply mergeAux_broadcast_col flows temporal size tls rep bc hWF hb
      simp [aggSpecs, h1]

def w7Temporal : Summary := [("avg_burst_score", 7)]

/-- Witness for C7: a temporal summary omitting two recognized keys
(and the scenario's other summaries, each omitting none). -/
theorem claim_C7_witness :
    (scenFlows.WF ∧ scenFlows.getCol "byte_count" = some [100, 200, 300] ∧
      Summary.getOpt w7Temporal "avg_mean_interarrival" = none ∧
      Summary.getOpt w7Temporal "avg_variance_interarrival" = none) ∧
    (∃ m, merge_features scenFlows w7Temporal scenSize scenTls scenRep = .ok m ∧
      (Summary.getOpt w7Temporal "avg_mean_interarrival" = none →
        m.getCol "avg_interarrival" = some (List.replicate scenFlows.nrows 0)) ∧
      (Summary.getOpt w7Temporal "avg_variance_interarrival" = none →
        m.getCol "interarrival_var" = some (List.replicate scenFlows.nrows 0)) ∧
      (Summary.getOpt w7Temporal "avg_burst_score" = none →
        m.getCol "burst_score" = some (List.replicate scenFlows.nrows 0)) ∧
      (Summary.getOpt scenSize "mean_packet_size" = none →
        m.getCol "mean_packet_size" = some (List.replicate scenFlows.nrows 0)) ∧
      (Summary.getOpt scenSize "std_packet_size" = none →
        m.getCol "std_packet_size" = some (List.replicate scenFlows.nrows 0)) ∧
      (Summary.getOpt scenTls "unique_fingerprints" = none →
        m.getCol "tls_unique_fp" = some (List.replicate scenFlows.nrows 0)) ∧
      (Summary.getOpt scenTls "suspicious_fingerprint_ratio" = none →
        m.getCol "tls_suspicious_ratio" = some (List.replicate scenFlows.nrows 0)) ∧
      (Summary.getOpt scenRep "vpn_like_ips" = none →
        m.getCol "vpn_like_ip_ratio" = some (List.replicate scenFlows.nrows 0)) ∧
      (Summary.getOpt scenRep "local_ips" = none →
        m.getCol "local_ip_ratio" = some (List.replicate scenFlows.nrows 0)) ∧
      (Summary.getOpt scenRep "total_unique_ips" = none →
        m.getCol "vpn_like_ip_ratio" =
          some (List.replicate scenFlows.nrows (Summary.get scenRep "vpn_like_ips" 0 / 1)) ∧
        m.getCol "local_ip_ratio" =
          some (List.replicate scenFlows.nrows (Summary.get scenRep "local_ips" 0 / 1)))) :=
  ⟨⟨by intro p hp; fin_cases hp <;> rfl, rfl, rfl, rfl⟩,
   claim_C7 scenFlows w7Temporal scenSize scenTls scenRep [100, 200, 300]
     (by intro p hp; fin_cases hp <;> rfl) rfl⟩

/-- C8: `feature_engineering` preserves the number of rows, and every column
it does not normalize (in particular every passthrough column of the input)
is unchanged, cell for cell and in order. -/
theorem claim_C8 (flows : Table) (temporal size tls rep : Summary) (bc : List ℝ)
    (hWF : flows.WF) (hd : "duration" ∈ flows.colNames)
    (hp : "packet_count" ∈ flows.colNames)
    (hb : flows.getCol "byte_count" = some bc) :
    ∃ u, feature_engineering flows temporal size tls rep = .ok u ∧
      u.nrows = flows.nrows ∧
      ∀ c, c ∉ numeric_cols → u.getCol c = flows.getCol c := by
  obtain ⟨u, hu, hnorm⟩ := feature_engineering_eq flows temporal size tls rep bc hd hp hb
  obtain ⟨mWF, mnr⟩ := mergeAux_WF flows temporal size tls rep bc hWF hb
  refine ⟨u, hu, ?_, ?_⟩
  · exact (normalizeCols_WF numeric_cols _ _ hnorm mWF).2.trans mnr
  · intro c hc
    rw [normalizeCols_getCol_not_mem numeric_cols _ _ hnorm c hc]
    have hc9 : c ∉ (aggSpecs temporal size tls rep).map Prod.fst := by
      rw [aggSpecs_names]
      intro hmem
      apply hc
      fin_cases hmem <;> simp [numeric_cols]
    have hcp : ¬ c = "packet_size_entropy" := by
      intro hcc
      exact hc (by simp [numeric_cols, hcc])
    rw [mergeAux, broadcastCols_getCol_not_mem _ _ _ hc9, getCol_setCol_ne _ _ hcp]

def w8Flows : Table :=
  ⟨[("duration", [1, 2, 3]), ("packet_count", [10, 20, 30]),
    ("byte_count", [100, 200, 300]), ("label", [0, 1, 0])]⟩

/-- Witness for C8 at a 3-row input with a passthrough `label` column. -/
theorem claim_C8_witness :
    (w8Flows.WF ∧ "duration" ∈ w8Flows.colNames ∧ "packet_count" ∈ w8Flows.colNames ∧
      w8Flows.getCol "byte_count" = some [100, 200, 300]) ∧
    (∃ u, feature_engineering w8Flows scenTemporal scenSize scenTls scenRep = .ok u ∧
      u.nrows = w8Flows.nrows ∧
      ∀ c, c ∉ numeric_cols → u.getCol c = w8Flows.getCol c) :=
  ⟨⟨by intro p hp; fin_cases hp <;> rfl,
    by simp [w8Flows, Table.colNames], by simp [w8Flows, Table.colNames], rfl⟩,
   claim_C8 w8Flows scenTemporal scenSize scenTls scenRep [100, 200, 300]
     (by intro p hp; fin_cases hp <;> rfl)
     (by simp [w8Flows, Table.colNames]) (by simp [w8Flows, Table.colNames]) rfl⟩

/-- C9: on a flow table lacking `byte_count`, the whole run aborts with
`SchemaError` — an `.error` result of `run` means the sink never executed,
so no output file is created or modified. -/
theorem claim_C9 (flows : Table) (temporal size tls rep : Summary) (out : List Char)
    (hb : flows.getCol "byte_count" = none) :
    run flows temporal size tls rep out = .error (Err.SchemaError "byte_count") := by
  simp [run, feature_engineering, merge_features, hb]

def w9Flows : Table := ⟨[("duration", [1, 2]), ("packet_count", [7, 8])]⟩

/-- Witness for C9: a flow table without a `byte_count` column. -/
theorem claim_C9_witness :
    w9Flows.getCol "byte_count" = none ∧
    run w9Flows scenTemporal scenSize scenTls scenRep ("out/x.csv".toList) =
      .error (Err.SchemaError "byte_count") :=
  ⟨rfl, claim_C9 w9Flows scenTemporal scenSize scenTls scenRep ("out/x.csv".toList) rfl⟩

/-- C10: with fully valid inputs, the sink fails with the error of
`os.makedirs("")` whenever the output path contains no `/` (its dirname is
empty), and succeeds when the path has at least one separator. -/
theorem claim_C10 (flows : Table) (temporal size tls rep : Summary) (bc : List ℝ)
    (out : List Char) (hd : "duration" ∈ flows.colNames)
    (hp : "packet_count" ∈ flows.colNames)
    (hb : flows.getCol "byte_count" = some bc) :
    ('/' ∉ out → run flows temporal size tls rep out = .error Err.FileNotFoundError) ∧
    ('/' ∈ out → ∃ u, run flows temporal size tls rep out = .ok u) := by
  obtain ⟨u, hu, h2⟩ := feature_engineering_eq flows temporal size tls rep bc hd hp hb
  constructor
  · intro hs
    have hdn : dirname out = [] := (dirname_eq_nil_iff out).mpr hs
    simp [run, hu, makedirs, hdn]
  · intro hs
    have hdn : ¬ dirname out = [] := by
      intro hc
      exact ((dirname_eq_nil_iff out).mp hc) hs
    exact ⟨u, by simp [run, hu, makedirs, hdn]⟩

/-- Witness for C10 at the scenario input with the bare filename `out.csv`. -/
theorem claim_C10_witness :
    ("duration" ∈ scenFlows.colNames ∧ "packet_count" ∈ scenFlows.colNames ∧
      scenFlows.getCol "byte_count" = some [100, 200, 300]) ∧
    (('/' ∉ "out.csv".toList →
        run scenFlows scenTemporal scenSize scenTls scenRep ("out.csv".toList) =
          .error Err.FileNotFoundError) ∧
     ('/' ∈ "out.csv".toList →
        ∃ u, run scenFlows scenTemporal scenSize scenTls scenRep ("out.csv".toList) = .ok u)) :=
  ⟨⟨by simp [scenFlows, Table.colNames], by simp [scenFlows, Table.colNames], rfl⟩,
   claim_C10 scenFlows scenTemporal scenSize scenTls scenRep [100, 200, 300]
     ("out.csv".toList) (by simp [scenFlows, Table.colNames])
     (by simp [scenFlows, Table.colNames]) rfl⟩

/-- C1 counterexample: at the spec §8 scenario input the output has 13
columns for a 3-column input — 10 new derived columns, not the claimed 12. -/
theorem claim_C1_counterexample :
    feature_engineering scenFlows scenTemporal scenSize scenTls scenRep = .ok scenOut ∧
    scenFlows.colNames.length = 3 ∧ scenOut.colNames.length = 13 ∧
    ¬ scenOut.colNames.length = scenFlows.colNames.length + 12 :=
  ⟨scen_fe, rfl, rfl, by decide⟩

/-- C1 (amended): the output columns are the input columns plus exactly the
10 derived columns (7 broadcast summary columns, 2 ratio columns and
`packet_size_entropy`), appended in the source's assignment order. -/
theorem claim_C1_amended (flows : Table) (temporal size tls rep : Summary) (bc : List ℝ)
    (hd : "duration" ∈ flows.colNames) (hp : "packet_count" ∈ flows.colNames)
    (hb : flows.getCol "byte_count" = some bc)
    (hnew : ∀ c ∈ new_feature_cols, c ∉ flows.colNames) :
    ∃ u, feature_engineering flows temporal size tls rep = .ok u ∧
      u.colNames = flows.colNames ++ new_feature_cols := by
  obtain ⟨u, hu, hnorm⟩ := feature_engineering_eq flows temporal size tls rep bc hd hp hb
  refine ⟨u, hu, ?_⟩
  rw [normalizeCols_colNames numeric_cols _ _ hnorm]
  have hpse : "packet_size_entropy" ∉ flows.colNames := hnew _ (by simp [new_feature_cols])
  have h0 : (flows.setCol "packet_size_entropy"
      (bc.map (fun x => compute_entropy [x]))).colNames
      = flows.colNames ++ ["packet_size_entropy"] := by
    rw [colNames_setCol]
    simp [hpse]
  have hdis : ∀ c ∈ (aggSpecs temporal size tls rep).map Prod.fst,
      c ∉ (flows.setCol "packet_size_entropy"
        (bc.map (fun x => compute_entropy [x]))).colNames := by
    intro c hcmem
    rw [h0]
    rw [aggSpecs_names] at hcmem
    intro hmem2
    rcases List.mem_append.mp hmem2 with hA | hB
    · have hcn : c ∈ new_feature_cols := by fin_cases hcmem <;> simp [new_feature_cols]
      exact hnew c hcn hA
    · have hcp : c = "packet_size_entropy" := by simpa using hB
      rw [hcp] at hcmem
      simp at hcmem
  rw [mergeAux,
    broadcastCols_colNames _ _ hdis (aggSpecs_names_nodup temporal size tls rep), h0,
    aggSpecs_names, List.append_assoc]
  rfl

/-- Witness for the amended C1 at the spec §8 scenario input. -/
theorem claim_C1_amended_witness :
    ("duration" ∈ scenFlows.colNames ∧ "packet_count" ∈ scenFlows.colNames ∧
      scenFlows.getCol "byte_count" = some [100, 200, 300] ∧
      (∀ c ∈ new_feature_cols, c ∉ scenFlows.colNames)) ∧
    (∃ u, feature_engineering scenFlows scenTemporal scenSize scenTls scenRep = .ok u ∧
      u.colNames = scenFlows.colNames ++ new_feature_cols) :=
  ⟨⟨by simp [scenFlows, Table.colNames], by simp [scenFlows, Table.colNames], rfl,
    by decide⟩,
   claim_C1_amended scenFlows scenTemporal scenSize scenTls scenRep [100, 200, 300]
     (by simp [scenFlows, Table.colNames]) (by simp [scenFlows, Table.colNames]) rfl
     (by decide)⟩

/-- C2 counterexample: on the spec §8 scenario the output does exist, but it
has 10 new columns (not 12), and the normalized `duration` column is
`[0, 1/(2+1e-9), 2/(2+1e-9)]`, whose entries differ from the claimed 0.5
and 1.0. -/
theorem claim_C2_counterexample :
    feature_engineering scenFlows scenTemporal scenSize scenTls scenRep = .ok scenOut ∧
    scenOut.getCol "duration" = some [0, 1 / (2 + eps), 2 / (2 + eps)] ∧
    ¬ (1 / (2 + eps) = (0.5 : ℝ)) ∧ ¬ (2 / (2 + eps) = (1 : ℝ)) ∧
    ¬ scenOut.colNames.length = scenFlows.colNames.length + 12 :=
  ⟨scen_fe, rfl, by norm_num [eps], by norm_num [eps], by decide⟩

/-- C2 (amended): on the spec §8 scenario the output has 3 rows and 10 new
columns, both ratio columns are 0.5 on every row before normalization, and
the normalized `duration` column is `[0, 1/(2+1e-9), 2/(2+1e-9)]` — within
1e-9 of the claimed `[0.0, 0.5, 1.0]`. -/
theorem claim_C2_amended :
    merge_features scenFlows scenTemporal scenSize scenTls scenRep = .ok scenMerged ∧
    feature_engineering scenFlows scenTemporal scenSize scenTls scenRep = .ok scenOut ∧
    scenOut.nrows = 3 ∧
    scenOut.colNames.length = scenFlows.colNames.length + 10 ∧
    scenMerged.getCol "vpn_like_ip_ratio" = some [0.5, 0.5, 0.5] ∧
    scenMerged.getCol "local_ip_ratio" = some [0.5, 0.5, 0.5] ∧
    scenOut.getCol "duration" = some [0, 1 / (2 + eps), 2 / (2 + eps)] ∧
    |1 / (2 + eps) - 0.5| < eps ∧ |2 / (2 + eps) - 1| < eps :=
  ⟨scen_merge, scen_fe, rfl, rfl, rfl, rfl, rfl,
   by rw [abs_sub_lt_iff]; constructor <;> norm_num [eps],
   by rw [abs_sub_lt_iff]; constructor <;> norm_num [eps]⟩
